import Mathlib

/-!
Verification development for the code-map repository.

Shallow embedding of the core logic of `src/dependency_mapper.py`
(class `DependencyMapper`) and `src/diagram_generator.py`
(class `DiagramGenerator`).

Modelling conventions:
* Python strings are Lean `String`s; most character-level work is done on
  `String.data : List Char`.
* A source file is modelled by its path together with the results of the
  fixed regex scans that `map_dependencies_and_methods` performs on its
  content (`localhost_pattern.findall`, the five dependency patterns'
  `findall` results concatenated in pattern order, `method_pattern.findall`),
  plus the whole-word occurrence test used by the method-usage search
  (`re.search(r"\b" + re.escape(m) + r"\b", content)`), given as a Boolean
  function of the searched word.  The aggregation, filtering, keying,
  deduplication and translation logic — which is what the claims are
  about — is translated statement by statement from the source.
* The regex `localhost:(\d+)` applied by `re.search` to a dependency
  string is implemented concretely (`localhostSearch`), as is Python's
  `urlparse(...).netloc` (`extract_domain`), `str.split` (`splitOnChar`),
  `os.path.basename` (`basename`) and substring containment (`hasSub`).
  `\d` is modelled as an ASCII digit.
* Python dicts (which preserve insertion order) are association lists with
  unique keys; `d[k] = v` is `aset`, the `if k not in d: d[k] = []` /
  `append` idiom is `aappend`, and the same idiom with `extend` is
  `aextend`.  `collections.Counter` is a total function `String → Nat`.
* File reads are assumed to succeed (the `except` branch that merely logs
  and skips a file is not exercised); the model never raises.
-/

/-- Decides whether `pat` is a prefix of `l` (character-wise equality). -/
def startsList : List Char → List Char → Bool
  | _, [] => true
  | [], _ :: _ => false
  | c :: cs, d :: ds => c = d && startsList cs ds

/-- Python's `pat in s` on the underlying character lists:
`hasSub l pat` is true iff `pat` occurs contiguously inside `l`. -/
def hasSub : List Char → List Char → Bool
  | [], pat => pat.isEmpty
  | c :: cs, pat => startsList (c :: cs) pat || hasSub cs pat

/-- Python's `pat in s` for strings. -/
def containsSubstr (s pat : String) : Bool :=
  hasSub s.data pat.data

/-- Decides whether `pat` is a suffix of `l`. -/
def endsList (l pat : List Char) : Bool :=
  startsList l.reverse pat.reverse

/-- Python's `str.split(sep)` for a one-character separator: splits on every
occurrence and keeps empty pieces, so the result is never empty. -/
def splitOnChar (sep : Char) (l : List Char) : List (List Char) :=
  l.foldr
    (fun c acc =>
      match acc with
      | [] => [[]]
      | g :: gs => if c = sep then [] :: g :: gs else (c :: g) :: gs)
    [[]]

/-- The `os.sep`-separated components of a path (`file_path.split(os.sep)`
with `os.sep = "/"`). -/
def pathParts (p : String) : List String :=
  (splitOnChar '/' p.data).map (fun cs => String.mk cs)

/-- Model of `os.path.basename` on POSIX: everything after the last `/`. -/
def basename (p : String) : String :=
  String.mk ((splitOnChar '/' p.data).getLastD [])

/-- Lookup in an insertion-ordered association list (Python `d[k]` /
`k in d`), returning the first (and, as built here, only) binding. -/
def alookup {α : Type} : List (String × α) → String → Option α
  | [], _ => none
  | (k', v) :: rest, k => if k' = k then some v else alookup rest k

/-- Python `d[k] = v`: replace the value at `k` in place, or append a new
binding at the end. -/
def aset {α : Type} : List (String × α) → String → α → List (String × α)
  | [], k, v => [(k, v)]
  | (k', v') :: rest, k, v =>
    if k' = k then (k', v) :: rest else (k', v') :: aset rest k v

/-- Python's `if k not in d: d[k] = []` followed by `d[k].append(x)`. -/
def aappend {α : Type} : List (String × List α) → String → α → List (String × List α)
  | [], k, x => [(k, [x])]
  | (k', v) :: rest, k, x =>
    if k' = k then (k', v ++ [x]) :: rest else (k', v) :: aappend rest k x

/-- Python's `if k not in d: d[k] = []` followed by `d[k].extend(xs)`. -/
def aextend {α : Type} : List (String × List α) → String → List α → List (String × List α)
  | [], k, xs => [(k, xs)]
  | (k', v) :: rest, k, xs =>
    if k' = k then (k', v ++ xs) :: rest else (k', v) :: aextend rest k xs

/-- The list bound to `k`, with `[]` for an absent key. -/
def lookupD (m : List (String × List String)) (k : String) : List String :=
  (alookup m k).getD []

/-- Characters of the literal `"localhost:"`, the fixed part of
`localhost_pattern = re.compile(r"localhost:(\d+)")`. -/
def lhChars : List Char := "localhost:".data

/-- Model of `localhost_pattern.search(s).group(1)`: the maximal run of
digits after the leftmost occurrence of `localhost:` that is followed by at
least one digit, or `none` when the pattern does not match. -/
def localhostSearch : List Char → Option (List Char)
  | [] => none
  | c :: cs =>
    if startsList (c :: cs) lhChars then
      let ds := ((c :: cs).drop lhChars.length).takeWhile Char.isDigit
      if ds.isEmpty then localhostSearch cs else some ds
    else localhostSearch cs

/-- The captured port of the first `localhost:(\d+)` match in a dependency
string, as a string. -/
def searchPort (d : String) : Option String :=
  (localhostSearch d.data).map (fun cs => String.mk cs)

/-- Characters allowed in a URL scheme by `urllib.parse`
(letters, digits, `+`, `-`, `.`). -/
def schemeChar (c : Char) : Bool :=
  c.isAlphanum || c = '+' || c = '-' || c = '.'

/-- Whether the first character exists and is an ASCII letter. -/
def headAlpha : List Char → Bool
  | [] => false
  | c :: _ => c.isAlpha

/-- Scheme removal step of `urllib.parse.urlsplit`: when the text up to the
first `:` is a well-formed scheme (nonempty, starts with a letter, all
scheme characters), drop it together with the colon. -/
def stripScheme (l : List Char) : List Char :=
  match l.findIdx? (fun c => c = ':') with
  | some i =>
    if decide (0 < i) && headAlpha l && (l.take i).all schemeChar then
      l.drop (i + 1)
    else l
  | none => l

/-- Characters that terminate the network-location part of a URL. -/
def netlocStop (c : Char) : Bool :=
  c = '/' || c = '?' || c = '#'

/-- Model of `DependencyMapper.extract_domain`: `urlparse(url).netloc`,
which is the text between a leading `//` (after an optional scheme) and the
next `/`, `?` or `#`, and `""` when the URL has no `//` part.  `urlsplit`
raises `ValueError` on a bracket appearing without its partner, which
`extract_domain` catches and turns into `None`; that is the `none` case. -/
def extract_domain (url : String) : Option String :=
  let rest := stripScheme url.data
  if startsList rest "//".data then
    let nl := (rest.drop 2).takeWhile (fun c => !netlocStop c)
    if (nl.contains '[') != (nl.contains ']') then none
    else some (String.mk nl)
  else some ""

/-- Model of `DependencyMapper.get_root_domain`: the last two dot-separated
labels joined by a dot, or the whole domain when it has fewer than two. -/
def get_root_domain (domain : String) : String :=
  match (splitOnChar '.' domain.data).reverse with
  | b :: a :: _ => String.mk (a ++ '.' :: b)
  | _ => domain

/-- The `self.supported_extensions` tuple of `DependencyMapper`. -/
def supported_extensions : List String := [".vb", ".vue", ".js"]

/-- Python's `file.endswith(self.supported_extensions)`. -/
def isSupported (path : String) : Bool :=
  supported_extensions.any (fun e => endsList path.data e.data)

/-- Method key construction of line 91:
`f"\x7bmethod\x7d_\x7bos.path.basename(file)\x7d"`. -/
def method_key (method file : String) : String :=
  method ++ "_" ++ basename file

/-- Python's `method_name.split("_")[0]` (line 98): the text before the
first underscore, the whole string when there is none. -/
def underscoreHead (s : String) : String :=
  String.mk (s.data.takeWhile (fun c => c != '_'))

/-- `Counter` increment: `domain_count[k] += 1`. -/
def cincr (c : String → Nat) (k : String) : String → Nat :=
  fun x => if x = k then c x + 1 else c x

/-- A source file as seen by `map_dependencies_and_methods`: its path and
the outcome of the fixed regex scans of its content. -/
structure FileData where
  path : String
  localhostMatches : List String
  depMatches : List String
  methodMatches : List String
  containsWord : String → Bool

/-- A project, as produced by the project collector: a name and a file
list. -/
structure Project where
  name : String
  files : List FileData

/-- One iteration of the dependency loop of lines 74–86: skip strings
containing `npmjs.org`; otherwise append the dependency and, when its
extracted domain is nonempty, bump the counter of its root domain. -/
def depStep (acc : List String × (String → Nat)) (d : String) :
    List String × (String → Nat) :=
  if containsSubstr d "npmjs.org" then acc
  else
    (acc.1 ++ [d],
     match extract_domain d with
     | some dom => if dom = "" then acc.2 else cincr acc.2 (get_root_domain dom)
     | none => acc.2)

/-- State threaded through the per-project file loop of lines 59–109:
the project's `dependencies` and `methods` accumulators together with the
global `method_usage_map`, `localhost_map` and `domain_count`. -/
structure FileLoopState where
  deps : List String
  methods : List (String × List String)
  mum : List (String × List String)
  lm : List (String × String)
  dc : String → Nat

/-- The body of the `for file in project["files"]` loop (lines 59–109):
unsupported extensions are skipped; otherwise register localhost ports,
collect (filtered) dependencies with domain counting, record method
definitions under their keys, and append the file to the usage list of
every method of the project so far whose bare name occurs in the file. -/
def processFile (pname : String) (st : FileLoopState) (f : FileData) :
    FileLoopState :=
  if isSupported f.path then
    let lm := f.localhostMatches.foldl (fun m port => aset m port pname) st.lm
    let dd := f.depMatches.foldl depStep (st.deps, st.dc)
    let ms := f.methodMatches.foldl
      (fun ms m => aappend ms (method_key m f.path) f.path) st.methods
    let mum := ms.foldl
      (fun mm kv =>
        if f.containsWord (underscoreHead kv.1) then aappend mm kv.1 f.path
        else mm)
      st.mum
    { deps := dd.1, methods := ms, mum := mum, lm := lm, dc := dd.2 }
  else st

/-- The global state built by the pass over all projects. -/
structure MapState where
  dependency_map : List (String × List String)
  method_usage_map : List (String × List String)
  localhost_map : List (String × String)
  domain_count : String → Nat

/-- The body of the `for project in projects` loop (lines 54–115): run the
file loop, store the project's dependencies under its name, and extend the
usage map with every method's list of defining files. -/
def processProject (st : MapState) (p : Project) : MapState :=
  let fls := p.files.foldl (processFile p.name)
    { deps := [], methods := [], mum := st.method_usage_map,
      lm := st.localhost_map, dc := st.domain_count }
  { dependency_map := aset st.dependency_map p.name fls.deps
    method_usage_map := fls.methods.foldl (fun mm kv => aextend mm kv.1 kv.2) fls.mum
    localhost_map := fls.lm
    domain_count := fls.dc }

/-- The collection pass of `map_dependencies_and_methods` (lines 48–115),
before deduplication and localhost translation. -/
def collect (projects : List Project) : MapState :=
  projects.foldl processProject
    { dependency_map := [], method_usage_map := [], localhost_map := [],
      domain_count := fun _ => 0 }

/-- The translation of one dependency string (lines 128–140): a string
containing `localhost` whose first `localhost:(\d+)` match carries a port
registered in the localhost map becomes the owning project's name; every
other string is kept. -/
def translateDep (lm : List (String × String)) (dep : String) : String :=
  if containsSubstr dep "localhost" then
    match searchPort dep with
    | some port =>
      match alookup lm port with
      | some pname => pname
      | none => dep
    | none => dep
  else dep

/-- Model of `DependencyMapper.map_dependencies_and_methods`: collect, then
deduplicate each usage list (`list(set(...))`, whose unspecified order is
modelled as first-occurrence order) and translate localhost dependencies,
returning the dependency map and the method usage map. -/
def map_dependencies_and_methods (projects : List Project) :
    List (String × List String) × List (String × List String) :=
  let st := collect projects
  (st.dependency_map.map (fun kv => (kv.1, kv.2.map (translateDep st.localhost_map))),
   st.method_usage_map.map (fun kv => (kv.1, kv.2.dedup)))

/-- The dependencies a single file contributes: its matches with the
`npmjs.org` noise filter applied. -/
def fileDeps (f : FileData) : List String :=
  f.depMatches.filter (fun d => !containsSubstr d "npmjs.org")

/-- All dependencies a project contributes, in extraction order. -/
def projectDeps (p : Project) : List String :=
  (p.files.filter (fun f => isSupported f.path)).foldr
    (fun f acc => fileDeps f ++ acc) []

/-- All dependencies of a scan, in extraction order. -/
def extractedDeps (projects : List Project) : List String :=
  (projects.map projectDeps).flatten

/-- The domain-counter key a dependency contributes to, if any: the root
domain of its extracted domain when that domain is nonempty. -/
def domainKeyOf (d : String) : Option String :=
  match extract_domain d with
  | some dom => if dom = "" then none else some (get_root_domain dom)
  | none => none

/-- The project name a localhost-style dependency resolves to, if any. -/
def resolvePort (lm : List (String × String)) (d : String) : Option String :=
  (searchPort d).bind (fun port => alookup lm port)

example : basename "/a/b/x.js" = "x.js" := by decide
example : method_key "foo" "/a/x.js" = "foo_x.js" := by decide
example : searchPort "http://localhost:8080/api" = some "8080" := by decide
example : searchPort "localhost:x localhost:42" = some "42" := by decide
example : extract_domain "https://api.example.com/x" = some "api.example.com" := by decide
example : extract_domain "react" = some "" := by decide
example : get_root_domain "api.example.com" = "example.com" := by decide
example : isSupported "a/b.js" = true := by decide
example : isSupported "a/b.txt" = false := by decide
example : containsSubstr "http://localhost:1/x" "localhost" = true := by decide

/-- A directed labelled edge of the emitted graph, as passed to
`dot.edge(source, target, label=...)`. -/
structure Edge where
  src : String
  tgt : String
  label : String
deriving DecidableEq

/-- Python's `dependency.replace(":", "\x5c\x5c:")` from line 47: every
colon is preceded by a backslash. -/
def escapeColons : List Char → List Char
  | [] => []
  | c :: cs =>
    if c = ':' then '\\' :: ':' :: escapeColons cs else c :: escapeColons cs

/-- Target-node formatting of lines 46–50: dependencies that start with
`http://` or `https://` get their colons escaped, everything else is kept
verbatim. -/
def format_dep (d : String) : String :=
  if startsList d.data "http://".data || startsList d.data "https://".data then
    String.mk (escapeColons d.data)
  else d

/-- Model of `DiagramGenerator.extract_project_name`: split the path on
`os.sep` and return the third-from-last component (`parts[-3]`); when the
path has fewer than three components the `IndexError` is caught and
`"unknown"` is returned. -/
def extract_project_name (file_path : String) : String :=
  let parts := pathParts file_path
  if 3 ≤ parts.length then parts.getD (parts.length - 3) "" else "unknown"

/-- Edge-builder state: the edges emitted so far, each paired with the raw
`(source, target)` key placed into `added_edges`, together with the
`added_edges` set itself. -/
def EdgeState : Type :=
  List ((String × String) × Edge) × List (String × String)

/-- The shared `added_edges` guard of lines 43 and 62: emit `e` under the
raw key `key` unless that key was already added. -/
def addEdge (st : EdgeState) (key : String × String) (e : Edge) : EdgeState :=
  if key ∈ st.2 then st else (st.1 ++ [(key, e)], key :: st.2)

/-- One dependency edge (lines 41–51): the dedup key is the raw
`(project, dependency)` pair; the emitted target is the formatted one. -/
def depEdgeStep (pname : String) (st : EdgeState) (d : String) : EdgeState :=
  addEdge st (pname, d) ⟨pname, format_dep d, "uses"⟩

/-- One method edge (lines 59–67): the owning project is recovered from the
file path and the target is the method node. -/
def methodEdgeStep (mnode : String) (st : EdgeState) (file : String) : EdgeState :=
  let pn := extract_project_name file
  addEdge st (pn, mnode) ⟨pn, mnode, "has method"⟩

/-- Model of the edge-emitting part of `DiagramGenerator.generate_dot_file`
(lines 36–67): dependency edges for every project, then — when
`includeMethods` — method edges, both filtered through the one shared
`added_edges` set.  Each emitted edge is returned with its dedup key. -/
def generate_dot_edges (dm : List (String × List String))
    (sm : List (String × List String)) (includeMethods : Bool) :
    List ((String × String) × Edge) :=
  let st1 : EdgeState :=
    dm.foldl (fun st pd => pd.2.foldl (depEdgeStep pd.1) st) ([], [])
  let st2 : EdgeState :=
    if includeMethods then
      sm.foldl (fun st mf => mf.2.foldl (methodEdgeStep ("method_" ++ mf.1)) st) st1
    else st1
  st2.1

example : extract_project_name "root/projA/sub/f.js" = "projA" := by decide
example : extract_project_name "f.js" = "unknown" := by decide
example : format_dep "http://a:1/b" = "http\\://a\\:1/b" := by decide
example : format_dep "lib/util.js" = "lib/util.js" := by decide

/-- Demo file of project `B`: one URL dependency that points at a
localhost port. -/
def fileB1 : FileData :=
  { path := "root/B/src/b.js", localhostMatches := [],
    depMatches := ["http://localhost:9000/api"], methodMatches := [],
    containsWord := fun _ => false }

/-- Demo file of project `svcA`: it declares localhost port 9000. -/
def fileA1 : FileData :=
  { path := "root/svcA/src/a.js", localhostMatches := ["9000"],
    depMatches := [], methodMatches := [], containsWord := fun _ => false }

/-- Two-project demo scan in which the port provider is scanned after the
referencing project. -/
def demoLH : List Project :=
  [{ name := "B", files := [fileB1] }, { name := "svcA", files := [fileA1] }]

/-- Demo file with a method definition whose bare name occurs in its own
content. -/
def fileM : FileData :=
  { path := "root/M/src/m.js", localhostMatches := [], depMatches := [],
    methodMatches := ["doWork"], containsWord := fun s => s = "doWork" }

/-- One-project demo scan with a single method definition. -/
def demoM : List Project := [{ name := "M", files := [fileM] }]

/-- Demo file with an unsupported extension but otherwise full of
would-be matches. -/
def fileTxt : FileData :=
  { path := "root/T/doc/readme.txt", localhostMatches := ["1"],
    depMatches := ["http://x.example/z"], methodMatches := ["m"],
    containsWord := fun _ => true }

/-- Demo file of a project whose name contains `npmjs.org`: it registers a
localhost port. -/
def fileNpm : FileData :=
  { path := "root/N/src/n.js", localhostMatches := ["8080"],
    depMatches := [], methodMatches := [], containsWord := fun _ => false }

/-- Demo file referencing the port registered by the ill-named project. -/
def fileC3 : FileData :=
  { path := "root/C/src/c.js", localhostMatches := [],
    depMatches := ["http://localhost:8080/x"], methodMatches := [],
    containsWord := fun _ => false }

/-- Demo scan exhibiting a project name that contains `npmjs.org`. -/
def demoNpm : List Project :=
  [{ name := "npmjs.org-svc", files := [fileNpm] },
   { name := "C3P", files := [fileC3] }]

/-- Mapping a function over all values of an association list commutes
with lookup. -/
theorem alookup_map_entries {α β : Type} (g : α → β) :
    ∀ (m : List (String × α)) (k : String),
      alookup (m.map (fun kv => (kv.1, g kv.2))) k = (alookup m k).map g := by
  intro m k
  induction m with
  | nil => rfl
  | cons kv rest ih =>
    by_cases h : kv.1 = k
    · simp [alookup, h]
    · simp [alookup, h, ih]

/-- A successful lookup comes from a binding of the list. -/
theorem alookup_mem {α : Type} :
    ∀ (m : List (String × α)) (k : String) (v : α),
      alookup m k = some v → (k, v) ∈ m := by
  intro m k v h
  induction m with
  | nil => simp [alookup] at h
  | cons kv rest ih =>
    by_cases hk : kv.1 = k
    · simp [alookup, hk] at h
      simp [← hk, ← h]
    · simp [alookup, hk] at h
      exact List.mem_cons_of_mem _ (ih h)

/-- Third-from-last indexing agrees with indexing 2 from the reversed
list. -/
theorem getD_sub_three (l : List String) (h : 3 ≤ l.length) :
    l.getD (l.length - 3) "" = l.reverse.getD 2 "" := by
  rw [List.getD_eq_getElem?_getD, List.getD_eq_getElem?_getD,
    List.getElem?_reverse (by omega)]
  rfl

/-- Claim C10: `extract_project_name` returns the third-from-last
`os.sep`-separated component of the path when there are at least three
components, and the string `"unknown"` (instead of failing) when there are
fewer. -/
theorem extract_project_name_spec (p : String) :
    (3 ≤ (pathParts p).length →
      extract_project_name p = (pathParts p).reverse.getD 2 "") ∧
    ((pathParts p).length < 3 → extract_project_name p = "unknown") := by
  constructor
  · intro h
    rw [extract_project_name, if_pos h]
    exact getD_sub_three _ h
  · intro h
    rw [extract_project_name, if_neg (by omega)]

/-- Witness for C10 at concrete paths: a three-component path yields its
third-from-last component, a one-component path yields `"unknown"`. -/
theorem extract_project_name_spec_witness :
    extract_project_name "root/projA/sub/f.js" = "projA" ∧
    extract_project_name "f.js" = "unknown" := by
  constructor
  · rw [(extract_project_name_spec "root/projA/sub/f.js").1 (by decide)]
    decide
  · exact (extract_project_name_spec "f.js").2 (by decide)

/-- Splitting at a separator absent from the left parts is injective. -/
theorem append_sep_inj :
    ∀ (a₁ a₂ b₁ b₂ : List Char), '_' ∉ a₁ → '_' ∉ a₂ →
      a₁ ++ '_' :: b₁ = a₂ ++ '_' :: b₂ → a₁ = a₂ ∧ b₁ = b₂ := by
  intro a₁
  induction a₁ with
  | nil =>
    intro a₂ b₁ b₂ _ h₂ h
    cases a₂ with
    | nil => simpa using h
    | cons c t =>
      exfalso
      simp only [List.nil_append, List.cons_append, List.cons.injEq] at h
      exact h₂ (by rw [h.1]; exact List.mem_cons_self c t)
  | cons c t ih =>
    intro a₂ b₁ b₂ h₁ h₂ h
    cases a₂ with
    | nil =>
      exfalso
      simp only [List.cons_append, List.nil_append, List.cons.injEq] at h
      exact h₁ (by rw [← h.1]; exact List.mem_cons_self c t)
    | cons d u =>
      simp only [List.cons_append, List.cons.injEq] at h
      have ht := ih u b₁ b₂ (fun hm => h₁ (List.mem_cons_of_mem c hm))
        (fun hm => h₂ (List.mem_cons_of_mem d hm)) h.2
      exact ⟨by rw [h.1, ht.1], ht.2⟩

/-- The characters of a method key: name, underscore, file basename. -/
theorem method_key_data (m f : String) :
    (method_key m f).data = m.data ++ '_' :: (basename f).data := by
  rw [method_key, String.data_append, String.data_append, List.append_assoc]
  rfl

/-- Claim C2 (amended): when the method names are underscore-free, a method
key determines exactly the method name together with the base name of the
defining file — and nothing finer: defining files are identified only up to
their base name. -/
theorem method_key_identifies (m₁ f₁ m₂ f₂ : String)
    (h₁ : '_' ∉ m₁.data) (h₂ : '_' ∉ m₂.data) :
    method_key m₁ f₁ = method_key m₂ f₂ ↔ m₁ = m₂ ∧ basename f₁ = basename f₂ := by
  constructor
  · intro h
    have hd := congrArg String.data h
    rw [method_key_data, method_key_data] at hd
    have := append_sep_inj m₁.data m₂.data (basename f₁).data (basename f₂).data h₁ h₂ hd
    exact ⟨String.ext this.1, String.ext this.2⟩
  · intro h
    rw [method_key, method_key, h.1, h.2]

/-- Witness for the amended C2 at concrete inputs: equal underscore-free
names and equal basenames (in different directories) give equal keys. -/
theorem method_key_identifies_witness :
    method_key "foo" "a/x.js" = method_key "foo" "b/x.js" :=
  (method_key_identifies "foo" "a/x.js" "foo" "b/x.js" (by decide) (by decide)).mpr
    ⟨rfl, by decide⟩

/-- Counterexample to C2 as stated: two distinct (name, defining-file)
pairs — same method name, same file basename, different directories —
produce the same method key. -/
theorem method_key_collision :
    method_key "foo" "/a/x.js" = method_key "foo" "/b/x.js" ∧
    ("/a/x.js" : String) ≠ "/b/x.js" := by
  decide

/-- Translating one dependency either keeps it or returns exactly the
project name its first localhost port resolves to. -/
theorem translateDep_eq_or_resolve (lm : List (String × String)) (d : String) :
    translateDep lm d = d ∨ resolvePort lm d = some (translateDep lm d) := by
  by_cases hc : containsSubstr d "localhost" = true
  · cases hp : searchPort d with
    | none => left; simp [translateDep, hc, hp]
    | some port =>
      cases ha : alookup lm port with
      | none => left; simp [translateDep, hc, hp, ha]
      | some owner =>
        right
        simp [translateDep, resolvePort, hc, hp, ha]
  · left; simp [translateDep, hc]

/-- Claim C9: the localhost-translation pass preserves the length and the
per-position content of a dependency sequence — each output position holds
either the original string or the project name its port resolves to. -/
theorem translation_frame (lm : List (String × String)) (deps : List String) :
    (deps.map (translateDep lm)).length = deps.length ∧
    ∀ i, i < deps.length →
      ((deps.map (translateDep lm)).getD i "" = deps.getD i "" ∨
       resolvePort lm (deps.getD i "") =
         some ((deps.map (translateDep lm)).getD i "")) := by
  refine ⟨List.length_map _ _, ?_⟩
  intro i hi
  have hmap : (deps.map (translateDep lm)).getD i "" =
      translateDep lm (deps.getD i "") := by
    rw [List.getD_eq_getElem?_getD, List.getD_eq_getElem?_getD, List.getElem?_map]
    cases hx : deps[i]? with
    | none =>
      rw [List.getElem?_eq_none_iff] at hx
      omega
    | some x => rfl
  rw [hmap]
  exact translateDep_eq_or_resolve lm (deps.getD i "")

/-- Demo localhost map for the C9 witness. -/
def lmW : List (String × String) := [("3000", "svc")]

/-- Demo dependency list for the C9 witness. -/
def depsW : List String := ["http://localhost:3000/x", "lib/a.js"]

/-- Witness for C9 at a concrete map and list: the length is preserved and
position 0 (a resolvable localhost dependency) satisfies the per-position
disjunction. -/
theorem translation_frame_witness :
    ((depsW.map (translateDep lmW)).length = depsW.length) ∧
    ((depsW.map (translateDep lmW)).getD 0 "" = depsW.getD 0 "" ∨
     resolvePort lmW (depsW.getD 0 "") =
       some ((depsW.map (translateDep lmW)).getD 0 "")) :=
  ⟨(translation_frame lmW depsW).1, (translation_frame lmW depsW).2 0 (by decide)⟩

/-- Claim C1: the resolved dependency list of every project is its
collected list translated under the full localhost table (so ports
registered by projects scanned later are visible); a localhost dependency
with a registered port becomes the owning project's name, one with an
unregistered port or no `localhost:(\d+)` match is left unchanged. -/
theorem localhost_resolution (projects : List Project) (pname : String)
    (deps : List String)
    (h : alookup (collect projects).dependency_map pname = some deps) :
    alookup (map_dependencies_and_methods projects).1 pname =
      some (deps.map (translateDep (collect projects).localhost_map)) ∧
    (∀ d port owner, containsSubstr d "localhost" = true →
        searchPort d = some port →
        alookup (collect projects).localhost_map port = some owner →
        translateDep (collect projects).localhost_map d = owner) ∧
    (∀ d, containsSubstr d "localhost" = true → searchPort d = none →
        translateDep (collect projects).localhost_map d = d) ∧
    (∀ d port, containsSubstr d "localhost" = true →
        searchPort d = some port →
        alookup (collect projects).localhost_map port = none →
        translateDep (collect projects).localhost_map d = d) := by
  refine ⟨?_, ?_, ?_, ?_⟩
  · have : (map_dependencies_and_methods projects).1 =
        (collect projects).dependency_map.map
          (fun kv => (kv.1, kv.2.map (translateDep (collect projects).localhost_map))) := rfl
    rw [this, alookup_map_entries, h]
    rfl
  · intro d port owner hc hp ha
    simp [translateDep, hc, hp, ha]
  · intro d hc hp
    simp [translateDep, hc, hp]
  · intro d port hc hp ha
    simp [translateDep, hc, hp, ha]

/-- Witness for C1 on the two-project demo scan: project `B`, scanned
before the provider `svcA`, still gets its localhost dependency replaced by
`svcA`. -/
theorem localhost_resolution_witness :
    alookup (map_dependencies_and_methods demoLH).1 "B" = some ["svcA"] := by
  rw [(localhost_resolution demoLH "B" ["http://localhost:9000/api"] (by decide)).1]
  decide

/-- Claim C5: every usage list in the returned MethodUsageMap is
duplicate-free — each file path appears at most once per method key. -/
theorem usage_lists_nodup (projects : List Project)
    (kv : String × List String)
    (hkv : kv ∈ (map_dependencies_and_methods projects).2) :
    kv.2.Nodup := by
  have hrepr : (map_dependencies_and_methods projects).2 =
      (collect projects).method_usage_map.map (fun kv => (kv.1, kv.2.dedup)) := rfl
  rw [hrepr] at hkv
  obtain ⟨kv₀, _, rfl⟩ := List.mem_map.mp hkv
  exact List.nodup_dedup _

/-- Witness for C5 on the one-project demo scan: the usage list of
`doWork_m.js` (recorded twice during extraction and merging) is
duplicate-free. -/
theorem usage_lists_nodup_witness : (["root/M/src/m.js"] : List String).Nodup :=
  usage_lists_nodup demoM ("doWork_m.js", ["root/M/src/m.js"]) (by decide)

/-- Claim C8: a file whose name ends in none of the supported source
extensions contributes no dependency, no method definition or usage and no
localhost registration — removing it from its project's file list leaves
the whole result unchanged. -/
theorem unsupported_file_noop (ps₁ ps₂ : List Project) (nm : String)
    (pre post : List FileData) (f : FileData)
    (hf : isSupported f.path = false) :
    map_dependencies_and_methods (ps₁ ++ { name := nm, files := pre ++ f :: post } :: ps₂) =
      map_dependencies_and_methods (ps₁ ++ { name := nm, files := pre ++ post } :: ps₂) := by
  have hskip : ∀ st : FileLoopState, processFile nm st f = st := by
    intro st
    simp [processFile, hf]
  have hfiles : ∀ st0 : FileLoopState,
      (pre ++ f :: post).foldl (processFile nm) st0 =
        (pre ++ post).foldl (processFile nm) st0 := by
    intro st0
    rw [List.foldl_append, List.foldl_append, List.foldl_cons, hskip]
  have hproj : ∀ st : MapState,
      processProject st { name := nm, files := pre ++ f :: post } =
        processProject st { name := nm, files := pre ++ post } := by
    intro st
    simp only [processProject, hfiles]
  have hcol : collect (ps₁ ++ { name := nm, files := pre ++ f :: post } :: ps₂) =
      collect (ps₁ ++ { name := nm, files := pre ++ post } :: ps₂) := by
    simp only [collect, List.foldl_append, List.foldl_cons, hproj]
  simp only [map_dependencies_and_methods, hcol]

/-- Witness for C8 at a concrete project: a `.txt` file full of would-be
matches contributes nothing. -/
theorem unsupported_file_noop_witness :
    map_dependencies_and_methods [{ name := "T", files := [fileTxt] }] =
      map_dependencies_and_methods [{ name := "T", files := [] }] :=
  unsupported_file_noop [] [] "T" [] [] fileTxt (by decide)

/-- Invariant of the edge builder: the dedup keys of the emitted edges are
pairwise distinct and all recorded in the `added_edges` set. -/
def EdgeInv (st : EdgeState) : Prop :=
  (st.1.map Prod.fst).Nodup ∧ ∀ k, k ∈ st.1.map Prod.fst → k ∈ st.2

/-- Guarded emission preserves the invariant. -/
theorem addEdge_inv (st : EdgeState) (key : String × String) (e : Edge)
    (h : EdgeInv st) : EdgeInv (addEdge st key e) := by
  unfold addEdge
  by_cases hk : key ∈ st.2
  · simpa [hk] using h
  · rw [if_neg hk]
    refine ⟨?_, ?_⟩
    · rw [List.map_append]
      refine List.Nodup.append h.1 (by simp) ?_
      intro a ha hb
      simp only [List.map_cons, List.map_nil, List.mem_singleton] at hb
      exact hk (hb ▸ h.2 a ha)
    · intro k hkm
      rw [List.map_append] at hkm
      rcases List.mem_append.mp hkm with hm | hm
      · exact List.mem_cons_of_mem _ (h.2 k hm)
      · simp only [List.map_cons, List.map_nil, List.mem_singleton] at hm
        rw [hm]
        exact List.mem_cons_self _ _

/-- A fold of invariant-preserving steps preserves the invariant. -/
theorem foldl_edge_inv {β : Type} (step : EdgeState → β → EdgeState)
    (hstep : ∀ st b, EdgeInv st → EdgeInv (step st b)) :
    ∀ (l : List β) (st : EdgeState), EdgeInv st → EdgeInv (l.foldl step st) := by
  intro l
  induction l with
  | nil => intro st h; exact h
  | cons b t ih => intro st h; exact ih _ (hstep st b h)

/-- Claim C7 (amended): `generate_dot_file` emits at most one edge per raw
(source, target) pair — the pair placed in `added_edges` before URL
escaping — and the suppression set is shared between dependency edges and
method edges.  (Per emitted node pair this can still leave duplicates,
because colon escaping may merge two distinct raw targets; see the
counterexample.) -/
theorem edge_keys_nodup (dm sm : List (String × List String)) (b : Bool) :
    ((generate_dot_edges dm sm b).map Prod.fst).Nodup := by
  have base : EdgeInv ([], []) := ⟨List.nodup_nil, by simp⟩
  have h1 : EdgeInv (dm.foldl (fun st pd => pd.2.foldl (depEdgeStep pd.1) st) ([], [])) :=
    foldl_edge_inv _
      (fun st pd hst =>
        foldl_edge_inv _ (fun st' d h' => addEdge_inv st' (pd.1, d) _ h') pd.2 st hst)
      dm ([], []) base
  have h2 : EdgeInv (if b then
      sm.foldl (fun st mf => mf.2.foldl (methodEdgeStep ("method_" ++ mf.1)) st)
        (dm.foldl (fun st pd => pd.2.foldl (depEdgeStep pd.1) st) ([], []))
    else dm.foldl (fun st pd => pd.2.foldl (depEdgeStep pd.1) st) ([], [])) := by
    cases b with
    | false => simpa using h1
    | true =>
      simp only [if_true]
      exact foldl_edge_inv _
        (fun st mf hst =>
          foldl_edge_inv _
            (fun st' fp h' =>
              addEdge_inv st' (extract_project_name fp, "method_" ++ mf.1) _ h')
            mf.2 st hst)
        sm _ h1
  exact h2.1

/-- Counterexample to C7 as stated: the dedup key is the raw dependency,
but the emitted target is the colon-escaped one, so the two distinct raw
dependencies `http://a` and `http\:/\/a` map to the same target node and
the emitted graph holds two edges between the same ordered node pair. -/
theorem edge_pair_duplicated :
    ¬ (((generate_dot_edges [("P", ["http://a", "http\\://a"])] [] true).map
        (fun pe => (pe.2.src, pe.2.tgt))).Nodup) := by
  decide

/-- A string is clean when it does not contain the noise substring
`npmjs.org`. -/
def noNpm (s : String) : Prop := containsSubstr s "npmjs.org" = false

instance noNpm_decidable (s : String) : Decidable (noNpm s) :=
  inferInstanceAs (Decidable (containsSubstr s "npmjs.org" = false))

/-- Every dependency of the list is clean. -/
def depsClean (l : List String) : Prop := ∀ d ∈ l, noNpm d

/-- Every value list of the dependency map is clean. -/
def dmClean (m : List (String × List String)) : Prop := ∀ kv ∈ m, depsClean kv.2

/-- Every project name stored in the localhost map is clean. -/
def lmClean (lm : List (String × String)) : Prop := ∀ kv ∈ lm, noNpm kv.2

/-- A binding of `aset m k v` is a binding of `m` or the new one. -/
theorem aset_mem {α : Type} :
    ∀ (m : List (String × α)) (k : String) (v : α) (kv : String × α),
      kv ∈ aset m k v → kv ∈ m ∨ kv = (k, v) := by
  intro m k v kv h
  induction m with
  | nil => simpa [aset] using h
  | cons hd rest ih =>
    by_cases hk : hd.1 = k
    · rcases hd with ⟨k', v'⟩
      simp only [aset, if_pos hk] at h
      rcases List.mem_cons.mp h with h1 | h1
      · right
        rw [h1]
        simp only at hk
        rw [hk]
      · left
        exact List.mem_cons_of_mem _ h1
    · rcases hd with ⟨k', v'⟩
      simp only [aset, if_neg hk] at h
      rcases List.mem_cons.mp h with h1 | h1
      · left
        rw [h1]
        exact List.mem_cons_self _ _
      · rcases ih h1 with h2 | h2
        · exact Or.inl (List.mem_cons_of_mem _ h2)
        · exact Or.inr h2

/-- The dependency component of the inner fold of lines 74–86: the
accumulated list extended by the noise-filtered matches. -/
theorem depfold_deps :
    ∀ (l ds : List String) (c : String → Nat),
      (l.foldl depStep (ds, c)).1 =
        ds ++ l.filter (fun d => !containsSubstr d "npmjs.org") := by
  intro l
  induction l with
  | nil => intro ds c; simp
  | cons d t ih =>
    intro ds c
    by_cases hd : containsSubstr d "npmjs.org" = true
    · have hstep : depStep (ds, c) d = (ds, c) := by simp [depStep, hd]
      rw [List.foldl_cons, hstep, ih, List.filter_cons]
      simp [hd]
    · have hd' : containsSubstr d "npmjs.org" = false := eq_false_of_ne_true hd
      rw [List.foldl_cons]
      calc (t.foldl depStep (depStep (ds, c) d)).1
          = (depStep (ds, c) d).1 ++
              t.filter (fun d => !containsSubstr d "npmjs.org") := ih _ _
        _ = (ds ++ [d]) ++ t.filter (fun d => !containsSubstr d "npmjs.org") := by
              rw [show (depStep (ds, c) d).1 = ds ++ [d] by simp [depStep, hd']]
        _ = ds ++ (d :: t).filter (fun d => !containsSubstr d "npmjs.org") := by
              rw [List.filter_cons]
              simp [hd']

/-- Registering localhost ports for a clean project name keeps the
localhost map clean. -/
theorem lmfold_clean (pname : String) (hp : noNpm pname) :
    ∀ (ports : List String) (lm : List (String × String)), lmClean lm →
      lmClean (ports.foldl (fun m port => aset m port pname) lm) := by
  intro ports
  induction ports with
  | nil => intro lm h; exact h
  | cons q t ih =>
    intro lm h
    rw [List.foldl_cons]
    apply ih
    intro kv hkv
    rcases aset_mem lm q pname kv hkv with h1 | h1
    · exact h kv h1
    · rw [h1]; exact hp

/-- One file step keeps the accumulated dependencies and the localhost map
clean. -/
theorem processFile_clean (pname : String) (hp : noNpm pname)
    (st : FileLoopState) (f : FileData)
    (h1 : depsClean st.deps) (h2 : lmClean st.lm) :
    depsClean (processFile pname st f).deps ∧
      lmClean (processFile pname st f).lm := by
  by_cases hs : isSupported f.path = true
  · constructor
    · intro d hd
      simp only [processFile, hs, if_true] at hd
      rw [depfold_deps] at hd
      rcases List.mem_append.mp hd with hm | hm
      · exact h1 d hm
      · have := (List.mem_filter.mp hm).2
        simpa [noNpm] using this
    · intro kv hkv
      simp only [processFile, hs, if_true] at hkv
      exact lmfold_clean pname hp f.localhostMatches st.lm h2 kv hkv
  · have hs' : isSupported f.path = false := eq_false_of_ne_true hs
    simp only [processFile, hs', Bool.false_eq_true, if_false]
    exact ⟨h1, h2⟩

/-- The whole per-project file loop keeps both accumulators clean. -/
theorem filefold_clean (pname : String) (hp : noNpm pname) :
    ∀ (files : List FileData) (st : FileLoopState),
      depsClean st.deps → lmClean st.lm →
      depsClean ((files.foldl (processFile pname) st).deps) ∧
        lmClean ((files.foldl (processFile pname) st).lm) := by
  intro files
  induction files with
  | nil => intro st h1 h2; exact ⟨h1, h2⟩
  | cons f t ih =>
    intro st h1 h2
    rw [List.foldl_cons]
    have hstep := processFile_clean pname hp st f h1 h2
    exact ih _ hstep.1 hstep.2

/-- One project step keeps the dependency map and the localhost map
clean. -/
theorem processProject_clean (st : MapState) (p : Project) (hp : noNpm p.name)
    (h1 : dmClean st.dependency_map) (h2 : lmClean st.localhost_map) :
    dmClean (processProject st p).dependency_map ∧
      lmClean (processProject st p).localhost_map := by
  have hf := filefold_clean p.name hp p.files
    { deps := [], methods := [], mum := st.method_usage_map,
      lm := st.localhost_map, dc := st.domain_count }
    (by intro d hd; simp at hd) h2
  constructor
  · intro kv hkv
    rcases aset_mem st.dependency_map p.name _ kv hkv with hm | hm
    · exact h1 kv hm
    · rw [hm]
      exact hf.1
  · exact hf.2

/-- The collection pass over clean-named projects yields a clean dependency
map and a clean localhost map. -/
theorem collect_clean (projects : List Project)
    (hn : ∀ p ∈ projects, noNpm p.name) :
    dmClean (collect projects).dependency_map ∧
      lmClean (collect projects).localhost_map := by
  have main : ∀ (l : List Project) (st : MapState), (∀ p ∈ l, noNpm p.name) →
      dmClean st.dependency_map → lmClean st.localhost_map →
      dmClean ((l.foldl processProject st).dependency_map) ∧
        lmClean ((l.foldl processProject st).localhost_map) := by
    intro l
    induction l with
    | nil => intro st _ h1 h2; exact ⟨h1, h2⟩
    | cons p t ih =>
      intro st hl h1 h2
      rw [List.foldl_cons]
      have hstep := processProject_clean st p (hl p (List.mem_cons_self _ _)) h1 h2
      exact ih _ (fun q hq => hl q (List.mem_cons_of_mem _ hq)) hstep.1 hstep.2
  exact main projects _ hn (by intro kv h; simp at h) (by intro kv h; simp at h)

/-- Translation under a clean localhost map maps clean dependencies to
clean strings. -/
theorem translateDep_clean (lm : List (String × String)) (hlm : lmClean lm)
    (d : String) (hd : noNpm d) : noNpm (translateDep lm d) := by
  rcases translateDep_eq_or_resolve lm d with h | h
  · rw [h]; exact hd
  · unfold resolvePort at h
    cases hp : searchPort d with
    | none => rw [hp] at h; simp at h
    | some port =>
      rw [hp, Option.some_bind] at h
      exact hlm (port, translateDep lm d) (alookup_mem lm port _ h)

/-- Claim C3 (amended): no dependency string containing `npmjs.org`
survives extraction, so as long as no project name contains `npmjs.org`,
no entry of the resolved DependencyMap contains it; localhost translation
can reintroduce the substring only through a project name. -/
theorem npm_never_in_resolved (projects : List Project)
    (hn : ∀ p ∈ projects, noNpm p.name)
    (key : String) (deps : List String)
    (h : alookup (map_dependencies_and_methods projects).1 key = some deps)
    (d : String) (hd : d ∈ deps) : noNpm d := by
  have hclean := collect_clean projects hn
  have hrepr : (map_dependencies_and_methods projects).1 =
      (collect projects).dependency_map.map
        (fun kv => (kv.1, kv.2.map (translateDep (collect projects).localhost_map))) := rfl
  rw [hrepr, alookup_map_entries] at h
  cases hl : alookup (collect projects).dependency_map key with
  | none => rw [hl] at h; simp at h
  | some deps0 =>
    rw [hl] at h
    have hdeps : deps = deps0.map (translateDep (collect projects).localhost_map) :=
      (Option.some.inj h).symm
    rw [hdeps] at hd
    obtain ⟨d0, hd0, rfl⟩ := List.mem_map.mp hd
    have h0 : depsClean deps0 :=
      hclean.1 (key, deps0) (alookup_mem _ _ _ hl)
    exact translateDep_clean _ hclean.2 d0 (h0 d0 hd0)

/-- Counterexample to C3 as stated: a project legitimately named
`npmjs.org-svc` registers port 8080; the dependency
`http://localhost:8080/x` of project `C3P` is translated to that name, so
the resolved DependencyMap contains a string with `npmjs.org`. -/
theorem npm_in_resolved_map :
    alookup (map_dependencies_and_methods demoNpm).1 "C3P" = some ["npmjs.org-svc"] ∧
    containsSubstr "npmjs.org-svc" "npmjs.org" = true := by
  decide

/-- Witness for the amended C3 on the clean demo scan: the resolved entry
of project `B` is clean. -/
theorem npm_never_in_resolved_witness : noNpm "svcA" :=
  npm_never_in_resolved demoLH (by decide) "B" ["svcA"] (by decide) "svcA"
    (by decide)

/-- Number of dependencies in a list that tally into the counter key
`key`. -/
def depKeyCount (key : String) (l : List String) : Nat :=
  List.countP (fun d => domainKeyOf d == some key) l

/-- The counter component of one dependency iteration, for a dependency
that passes the noise filter. -/
theorem depStep_dc (ds : List String) (c : String → Nat) (d : String)
    (key : String) (hd : containsSubstr d "npmjs.org" = false) :
    (depStep (ds, c) d).2 key =
      c key + (if domainKeyOf d == some key then 1 else 0) := by
  cases he : extract_domain d with
  | none => simp [depStep, hd, domainKeyOf, he]
  | some dom =>
    by_cases hdom : dom = ""
    · simp [depStep, hd, domainKeyOf, he, hdom]
    · by_cases hk : key = get_root_domain dom
      · simp [depStep, hd, domainKeyOf, he, hdom, cincr, hk]
      · have hbeq : (some (get_root_domain dom) == some key) = false := by
          simp [beq_iff_eq]
          exact fun h => hk h.symm
        simp [depStep, hd, domainKeyOf, he, hdom, cincr, hk, hbeq]

/-- The counter component of the inner fold of lines 74–86. -/
theorem depfold_count (key : String) :
    ∀ (l ds : List String) (c : String → Nat),
      (l.foldl depStep (ds, c)).2 key =
        c key + depKeyCount key (l.filter (fun d => !containsSubstr d "npmjs.org")) := by
  intro l
  induction l with
  | nil => intro ds c; simp [depKeyCount]
  | cons d t ih =>
    intro ds c
    by_cases hd : containsSubstr d "npmjs.org" = true
    · have hstep : depStep (ds, c) d = (ds, c) := by simp [depStep, hd]
      rw [List.foldl_cons, hstep, ih, List.filter_cons]
      simp [hd]
    · have hd' : containsSubstr d "npmjs.org" = false := eq_false_of_ne_true hd
      rw [List.foldl_cons]
      calc (t.foldl depStep (depStep (ds, c) d)).2 key
          = (depStep (ds, c) d).2 key +
              depKeyCount key (t.filter (fun d => !containsSubstr d "npmjs.org")) :=
            ih _ _
        _ = c key + (if domainKeyOf d == some key then 1 else 0) +
              depKeyCount key (t.filter (fun d => !containsSubstr d "npmjs.org")) := by
            rw [depStep_dc ds c d key hd']
        _ = c key + depKeyCount key
              ((d :: t).filter (fun d => !containsSubstr d "npmjs.org")) := by
            rw [List.filter_cons]
            simp only [hd', Bool.not_false, if_true, depKeyCount, List.countP_cons]
            omega

/-- The counter component of one file step. -/
theorem processFile_dc (pname : String) (st : FileLoopState) (f : FileData)
    (key : String) :
    (processFile pname st f).dc key =
      st.dc key + (if isSupported f.path then depKeyCount key (fileDeps f) else 0) := by
  by_cases hs : isSupported f.path = true
  · simp only [processFile, hs, if_true]
    rw [depfold_count]
    rfl
  · have hs' : isSupported f.path = false := eq_false_of_ne_true hs
    simp [processFile, hs']

/-- The counter component of the per-project file loop. -/
theorem filefold_dc (pname : String) :
    ∀ (files : List FileData) (st : FileLoopState) (key : String),
      ((files.foldl (processFile pname) st).dc) key =
        st.dc key + depKeyCount key (projectDeps { name := pname, files := files }) := by
  intro files
  induction files with
  | nil => intro st key; simp [projectDeps, depKeyCount]
  | cons f t ih =>
    intro st key
    rw [List.foldl_cons, ih]
    rw [processFile_dc]
    by_cases hs : isSupported f.path = true
    · have hp : projectDeps { name := pname, files := f :: t } =
          fileDeps f ++ projectDeps { name := pname, files := t } := by
        simp [projectDeps, List.filter_cons, hs]
      rw [hp]
      simp only [hs, if_true, depKeyCount, List.countP_append]
      omega
    · have hs' : isSupported f.path = false := eq_false_of_ne_true hs
      have hp : projectDeps { name := pname, files := f :: t } =
          projectDeps { name := pname, files := t } := by
        simp [projectDeps, List.filter_cons, hs']
      rw [hp]
      simp [hs']

/-- The counter built by the collection pass counts exactly the extracted
dependencies. -/
theorem collect_dc (projects : List Project) (key : String) :
    (collect projects).domain_count key = depKeyCount key (extractedDeps projects) := by
  have main : ∀ (l : List Project) (st : MapState) (key : String),
      ((l.foldl processProject st).domain_count) key =
        st.domain_count key + depKeyCount key ((l.map projectDeps).flatten) := by
    intro l
    induction l with
    | nil => intro st key; simp [depKeyCount]
    | cons p t ih =>
      intro st key
      rw [List.foldl_cons, ih]
      have hp : (processProject st p).domain_count key =
          st.domain_count key + depKeyCount key (projectDeps p) := by
        simp only [processProject]
        rw [filefold_dc]
      rw [hp]
      simp only [List.map_cons, List.flatten_cons, depKeyCount, List.countP_append]
      omega
  rw [show collect projects =
    (projects.foldl processProject
      { dependency_map := [], method_usage_map := [], localhost_map := [],
        domain_count := fun _ => 0 }) from rfl, main]
  simp [extractedDeps]

/-- Claim C6: the domain counter of a scan counts, for every key, exactly
the extracted (noise-filtered) dependencies whose parsed host is nonempty
and whose root domain — the last two dot-separated labels of the host — is
that key; dependencies that do not parse as a URL contribute nothing. -/
theorem domain_aggregation (projects : List Project) (key : String) :
    (collect projects).domain_count key =
      List.countP (fun d => domainKeyOf d == some key) (extractedDeps projects) :=
  collect_dc projects key

/-- Demo project for the spec's domain-aggregation example. -/
def demoDom : List Project :=
  [{ name := "D",
     files := [{ path := "root/D/src/d.js", localhostMatches := [],
                 depMatches := ["https://api.example.com/x", "https://cdn.example.com/y"],
                 methodMatches := [], containsWord := fun _ => false }] }]

example : (collect demoDom).domain_count "example.com" = 2 := by decide
example : domainKeyOf "https://api.example.com/x" = some "example.com" := by decide
example : domainKeyOf "lib/util.js" = none := by decide

/-- Appending under a key extends exactly that key's list. -/
theorem lookupD_aappend_self (m : List (String × List String)) (k x : String) :
    lookupD (aappend m k x) k = lookupD m k ++ [x] := by
  induction m with
  | nil => simp [aappend, lookupD, alookup]
  | cons kv rest ih =>
    rcases kv with ⟨k', v⟩
    by_cases hk : k' = k
    · simp [aappend, hk, lookupD, alookup]
    · simp only [aappend, hk, if_false, lookupD, alookup]
      simpa [lookupD] using ih

/-- Appending under a key leaves other keys' lists unchanged. -/
theorem lookupD_aappend_ne (m : List (String × List String)) (k k' x : String)
    (h : k ≠ k') : lookupD (aappend m k x) k' = lookupD m k' := by
  induction m with
  | nil => simp [aappend, lookupD, alookup, h]
  | cons kv rest ih =>
    rcases kv with ⟨k₁, v⟩
    by_cases hk : k₁ = k
    · rw [hk]
      simp [aappend, lookupD, alookup, h]
    · simp only [aappend, hk, if_false]
      by_cases hk' : k₁ = k'
      · simp [lookupD, alookup, hk']
      · simp only [lookupD, alookup, hk', if_false]
        simpa [lookupD] using ih

/-- Extending under a key extends exactly that key's list. -/
theorem lookupD_aextend_self (m : List (String × List String)) (k : String)
    (xs : List String) : lookupD (aextend m k xs) k = lookupD m k ++ xs := by
  induction m with
  | nil => simp [aextend, lookupD, alookup]
  | cons kv rest ih =>
    rcases kv with ⟨k', v⟩
    by_cases hk : k' = k
    · simp [aextend, hk, lookupD, alookup]
    · simp only [aextend, hk, if_false, lookupD, alookup]
      simpa [lookupD] using ih

/-- Extending under a key leaves other keys' lists unchanged. -/
theorem lookupD_aextend_ne (m : List (String × List String)) (k k' : String)
    (xs : List String) (h : k ≠ k') :
    lookupD (aextend m k xs) k' = lookupD m k' := by
  induction m with
  | nil => simp [aextend, lookupD, alookup, h]
  | cons kv rest ih =>
    rcases kv with ⟨k₁, v⟩
    by_cases hk : k₁ = k
    · rw [hk]
      simp [aextend, lookupD, alookup, h]
    · simp only [aextend, hk, if_false]
      by_cases hk' : k₁ = k'
      · simp [lookupD, alookup, hk']
      · simp only [lookupD, alookup, hk', if_false]
        simpa [lookupD] using ih

/-- Pointwise inclusion of usage maps: every recorded membership of the
first map also holds in the second. -/
def mumLe (m₁ m₂ : List (String × List String)) : Prop :=
  ∀ k x, x ∈ lookupD m₁ k → x ∈ lookupD m₂ k

theorem mumLe_refl (m : List (String × List String)) : mumLe m m :=
  fun _ _ h => h

theorem mumLe_trans {a b c : List (String × List String)}
    (h₁ : mumLe a b) (h₂ : mumLe b c) : mumLe a c :=
  fun k x h => h₂ k x (h₁ k x h)

theorem mumLe_aappend (m : List (String × List String)) (k x : String) :
    mumLe m (aappend m k x) := by
  intro k' y h
  by_cases hk : k = k'
  · rw [← hk] at h ⊢
    rw [lookupD_aappend_self]
    exact List.mem_append_left _ h
  · rw [lookupD_aappend_ne m k k' x hk]
    exact h

theorem mumLe_aextend (m : List (String × List String)) (k : String)
    (xs : List String) : mumLe m (aextend m k xs) := by
  intro k' y h
  by_cases hk : k = k'
  · rw [← hk] at h ⊢
    rw [lookupD_aextend_self]
    exact List.mem_append_left _ h
  · rw [lookupD_aextend_ne m k k' xs hk]
    exact h

/-- A fold of pointwise-monotone steps is pointwise monotone. -/
theorem foldl_mumLe {β : Type}
    (step : List (String × List String) → β → List (String × List String))
    (hstep : ∀ m b, mumLe m (step m b)) :
    ∀ (l : List β) (m : List (String × List String)), mumLe m (l.foldl step m) := by
  intro l
  induction l with
  | nil => intro m; exact mumLe_refl m
  | cons b t ih =>
    intro m
    exact mumLe_trans (hstep m b) (ih (step m b))

/-- After folding a file's method matches into the methods table, the file
is recorded under the key of each of its matches. -/
theorem mem_methods_fold (fpath : String) :
    ∀ (l : List String) (ms : List (String × List String)) (m : String), m ∈ l →
      fpath ∈ lookupD
        (l.foldl (fun ms mm => aappend ms (method_key mm fpath) fpath) ms)
        (method_key m fpath) := by
  intro l
  induction l with
  | nil => intro ms m h; simp at h
  | cons a t ih =>
    intro ms m hm
    rw [List.foldl_cons]
    rcases List.mem_cons.mp hm with h | h
    · subst h
      refine foldl_mumLe _ (fun ms' mm => mumLe_aappend ms' (method_key mm fpath) fpath)
        t _ (method_key m fpath) fpath ?_
      rw [lookupD_aappend_self]
      exact List.mem_append_right _ (List.mem_singleton_self _)
    · exact ih _ m h

/-- One file step only grows the methods table. -/
theorem processFile_methods_mono (pname : String) (st : FileLoopState)
    (f : FileData) : mumLe st.methods (processFile pname st f).methods := by
  by_cases hs : isSupported f.path = true
  · simp only [processFile, hs, if_true]
    exact foldl_mumLe _ (fun ms mm => mumLe_aappend ms _ f.path) f.methodMatches st.methods
  · simp only [processFile, eq_false_of_ne_true hs, Bool.false_eq_true, if_false]
    exact mumLe_refl _

/-- One file step only grows the usage map. -/
theorem processFile_mum_mono (pname : String) (st : FileLoopState)
    (f : FileData) : mumLe st.mum (processFile pname st f).mum := by
  by_cases hs : isSupported f.path = true
  · simp only [processFile, hs, if_true]
    refine foldl_mumLe _ (fun mm kv => ?_) _ st.mum
    by_cases hw : f.containsWord (underscoreHead kv.1) = true
    · simp only [hw, if_true]
      exact mumLe_aappend mm kv.1 f.path
    · simp only [eq_false_of_ne_true hw, Bool.false_eq_true, if_false]
      exact mumLe_refl mm
  · simp only [processFile, eq_false_of_ne_true hs, Bool.false_eq_true, if_false]
    exact mumLe_refl _

/-- The file loop only grows the methods table. -/
theorem filefold_methods_mono (pname : String) :
    ∀ (files : List FileData) (st : FileLoopState),
      mumLe st.methods ((files.foldl (processFile pname) st).methods) := by
  intro files
  induction files with
  | nil => intro st; exact mumLe_refl _
  | cons f t ih =>
    intro st
    rw [List.foldl_cons]
    exact mumLe_trans (processFile_methods_mono pname st f) (ih _)

/-- The file loop only grows the usage map. -/
theorem filefold_mum_mono (pname : String) :
    ∀ (files : List FileData) (st : FileLoopState),
      mumLe st.mum ((files.foldl (processFile pname) st).mum) := by
  intro files
  induction files with
  | nil => intro st; exact mumLe_refl _
  | cons f t ih =>
    intro st
    rw [List.foldl_cons]
    exact mumLe_trans (processFile_mum_mono pname st f) (ih _)

/-- After the file loop, each supported file is recorded in the methods
table under each of its method keys. -/
theorem filefold_methods_mem (pname : String) :
    ∀ (files : List FileData) (st : FileLoopState) (f : FileData), f ∈ files →
      isSupported f.path = true → ∀ m ∈ f.methodMatches,
      f.path ∈ lookupD ((files.foldl (processFile pname) st).methods)
        (method_key m f.path) := by
  intro files
  induction files with
  | nil => intro st f h; simp at h
  | cons g t ih =>
    intro st f hf hsupp m hm
    rw [List.foldl_cons]
    rcases List.mem_cons.mp hf with h | h
    · subst h
      refine filefold_methods_mono pname t (processFile pname st f) _ _ ?_
      simp only [processFile, hsupp, if_true]
      exact mem_methods_fold f.path f.methodMatches st.methods m hm
    · exact ih _ f h hsupp m hm

/-- Folding the methods table into the usage map (lines 112–115) keeps
every recorded (key, file) pair. -/
theorem extendfold_mem :
    ∀ (ms mum : List (String × List String)) (k x : String),
      x ∈ lookupD ms k →
      x ∈ lookupD (ms.foldl (fun mm kv => aextend mm kv.1 kv.2) mum) k := by
  intro ms
  induction ms with
  | nil => intro mum k x h; simp [lookupD, alookup] at h
  | cons kv rest ih =>
    intro mum k x h
    rcases kv with ⟨k₁, v₁⟩
    rw [List.foldl_cons]
    by_cases hk : k₁ = k
    · subst hk
      have hv : x ∈ v₁ := by simpa [lookupD, alookup] using h
      refine foldl_mumLe (fun mm kv => aextend mm kv.1 kv.2)
        (fun mm kv => mumLe_aextend mm kv.1 kv.2) rest _ k₁ x ?_
      rw [lookupD_aextend_self]
      exact List.mem_append_right _ hv
    · have hv : x ∈ lookupD rest k := by
        simpa [lookupD, alookup, hk] using h
      exact ih _ k x hv

/-- One project step records every supported file under each of its method
keys in the usage map. -/
theorem processProject_mum_mem (st : MapState) (p : Project) (f : FileData)
    (hf : f ∈ p.files) (hsupp : isSupported f.path = true)
    (m : String) (hm : m ∈ f.methodMatches) :
    f.path ∈ lookupD (processProject st p).method_usage_map
      (method_key m f.path) := by
  simp only [processProject]
  exact extendfold_mem _ _ _ _
    (filefold_methods_mem p.name p.files _ f hf hsupp m hm)

/-- One project step only grows the usage map. -/
theorem processProject_mum_mono (st : MapState) (p : Project) :
    mumLe st.method_usage_map (processProject st p).method_usage_map := by
  simp only [processProject]
  refine mumLe_trans (filefold_mum_mono p.name p.files
    { deps := [], methods := [], mum := st.method_usage_map,
      lm := st.localhost_map, dc := st.domain_count }) ?_
  exact foldl_mumLe (fun mm (kv : String × List String) => aextend mm kv.1 kv.2)
    (fun mm kv => mumLe_aextend mm kv.1 kv.2) _ _

/-- The project loop only grows the usage map. -/
theorem projfold_mum_mono :
    ∀ (l : List Project) (st : MapState),
      mumLe st.method_usage_map ((l.foldl processProject st).method_usage_map) := by
  intro l
  induction l with
  | nil => intro st; exact mumLe_refl _
  | cons p t ih =>
    intro st
    rw [List.foldl_cons]
    exact mumLe_trans (processProject_mum_mono st p) (ih _)

/-- After the collection pass, every supported file of every project is
recorded under each of its method keys. -/
theorem collect_mum_mem (projects : List Project) (p : Project)
    (hp : p ∈ projects) (f : FileData) (hf : f ∈ p.files)
    (hsupp : isSupported f.path = true) (m : String) (hm : m ∈ f.methodMatches) :
    f.path ∈ lookupD (collect projects).method_usage_map
      (method_key m f.path) := by
  obtain ⟨s, t, rfl⟩ := List.append_of_mem hp
  rw [show collect (s ++ p :: t) =
    ((s ++ p :: t).foldl processProject
      { dependency_map := [], method_usage_map := [], localhost_map := [],
        domain_count := fun _ => 0 }) from rfl]
  rw [List.foldl_append, List.foldl_cons]
  exact projfold_mum_mono t _ _ _
    (processProject_mum_mem _ p f hf hsupp m hm)

/-- Claim C4: for every method definition matched in a (supported) file,
that defining file is contained in the method key's usage set of the
returned MethodUsageMap. -/
theorem method_def_in_usage (projects : List Project) (p : Project)
    (hp : p ∈ projects) (f : FileData) (hf : f ∈ p.files)
    (hsupp : isSupported f.path = true) (m : String)
    (hm : m ∈ f.methodMatches) :
    f.path ∈ lookupD (map_dependencies_and_methods projects).2
      (method_key m f.path) := by
  have hcol := collect_mum_mem projects p hp f hf hsupp m hm
  have hrepr : (map_dependencies_and_methods projects).2 =
      (collect projects).method_usage_map.map (fun kv => (kv.1, kv.2.dedup)) := rfl
  rw [hrepr]
  unfold lookupD at hcol ⊢
  rw [alookup_map_entries]
  cases hl : alookup (collect projects).method_usage_map (method_key m f.path) with
  | none =>
    rw [hl] at hcol
    simp at hcol
  | some v =>
    rw [hl] at hcol
    simp only [Option.map_some', Option.getD_some] at hcol ⊢
    exact List.mem_dedup.mpr hcol

/-- Witness for C4 on the one-project demo scan: the defining file of
`doWork` is in the usage set of key `doWork_m.js`. -/
theorem method_def_in_usage_witness :
    "root/M/src/m.js" ∈ lookupD (map_dependencies_and_methods demoM).2
      (method_key "doWork" "root/M/src/m.js") :=
  method_def_in_usage demoM { name := "M", files := [fileM] } (List.Mem.head _)
    fileM (List.Mem.head _) (by decide) "doWork" (by decide)
